import Mathlib

/-!
Verification of the Persian-Swear-Word redaction pipeline (`swear.py`).

The source is a small Python program with three pure core operations:

* `normalize_text(text)`  — `re.sub(r'(.)\1{2,}', r'\1', text)`: every maximal
  run of three or more identical consecutive characters collapses to a single
  occurrence.  Python's `.` (without `re.DOTALL`) matches every character
  except the newline `'\n'`, so runs of newlines are never collapsed; the
  back-reference `\1` repeats the captured (non-newline) character.
* `is_swear_word(token)`  — normalizes the token and tests whether any lexicon
  fragment occurs in it as a contiguous substring (Python `in`).
* `remove_persian_swear_words(text)` — normalizes the whole text, splits on
  whitespace (Python `str.split()` with no argument: maximal whitespace runs
  are separators, empty tokens are dropped), routes each token to a detected
  or a clean list, rejoins the clean tokens with single spaces and computes
  `(len(detected) / len(tokens)) * 100` (or `0` for an empty token list).

Strings are embedded as `String`/`List Char`; the percentage (a Python float
obtained from exact small integer counts) is embedded as a rational `ℚ`.
`load_swear_words` wraps its file/JSON work in a `try/except` returning `[]`;
the effectful part (open + `json.load`) is embedded as an `Except` input and
the code after it is translated directly.
-/

namespace PersianSwear

/-- The whitespace characters recognised by Python's argument-less
`str.split()` (the ASCII whitespace set; exotic Unicode whitespace is not
modelled — no claim depends on it). -/
def isPySpace (c : Char) : Bool :=
  c = ' ' || c = '\t' || c = '\n' || c = '\r' || c = '\x0b' || c = '\x0c'

/-- Emission of one maximal character run by `re.sub(r'(.)\1{2,}', r'\1', ·)`:
a run of `n` copies of `c` becomes a single `c` when `c` is matched by `.`
(anything but `'\n'`) and `n ≥ 3`; otherwise the run is left as-is. -/
def emitRun (c : Char) (n : Nat) : List Char :=
  if c ≠ '\n' ∧ 3 ≤ n then [c] else List.replicate n c

/-- Scanner for `normalize_text`: `c` is the character of the run currently
being read and `n ≥ 1` the number of copies seen so far. -/
def normAux (c : Char) (n : Nat) : List Char → List Char
  | [] => emitRun c n
  | d :: rest =>
    if d = c then normAux c (n + 1) rest
    else emitRun c n ++ normAux d 1 rest

/-- The substitution `re.sub(r'(.)\1{2,}', r'\1', text)` on the character list of `text`. -/
def normChars : List Char → List Char
  | [] => []
  | c :: rest => normAux c 1 rest

/-- Function `normalize_text` (swear.py lines 39–46). -/
def normalize_text (text : String) : String :=
  ⟨normChars text.data⟩

/-- Accumulator version of Python's argument-less `str.split()`:
`acc` holds the (reversed) characters of the token currently being read. -/
def splitWsAux : List Char → List Char → List (List Char)
  | [], acc => if acc.isEmpty then [] else [acc.reverse]
  | c :: rest, acc =>
    if isPySpace c then
      (if acc.isEmpty then [] else [acc.reverse]) ++ splitWsAux rest []
    else
      splitWsAux rest (c :: acc)

/-- Python `str.split()` on a character list: split on maximal whitespace
runs, dropping empty tokens. -/
def splitWs (l : List Char) : List (List Char) :=
  splitWsAux l []

/-- Python `str.split()` at the `String` level. -/
def pySplit (s : String) : List String :=
  (splitWs s.data).map (fun l => ⟨l⟩)

/-- Function `is_swear_word` (swear.py lines 48–55): normalize the token, then
`any(sw_word in normalized_token for sw_word in self.swear_words)` —
contiguous, case-sensitive substring containment. -/
def is_swear_word (swear_words : List String) (token : String) : Bool :=
  swear_words.any (fun sw_word => decide (sw_word.data <:+: (normalize_text token).data))

/-- The token loop of `remove_persian_swear_words` (swear.py lines 70–75):
each token is appended, in original order, to the clean list (first
component) or to the detected list (second component). -/
def classifyTokens (swear_words : List String) : List String → List String × List String
  | [] => ([], [])
  | token :: rest =>
    let p := classifyTokens swear_words rest
    if is_swear_word swear_words token then (p.1, token :: p.2)
    else (token :: p.1, p.2)

/-- The dictionary returned by `remove_persian_swear_words`
(swear.py lines 80–84). -/
structure RedactionResult where
  cleaned_text : String
  detected_swear_words : List String
  swear_word_percentage : ℚ
deriving DecidableEq, Repr

/-- Function `remove_persian_swear_words` (swear.py lines 57–84). -/
def remove_persian_swear_words (swear_words : List String) (text : String) :
    RedactionResult :=
  let normalized_text := normalize_text text
  let tokens := pySplit normalized_text
  let p := classifyTokens swear_words tokens
  let cleaned_tokens := p.1
  let detected_swear_words := p.2
  let cleaned_text := String.intercalate " " cleaned_tokens
  let swear_word_percentage : ℚ :=
    if tokens = [] then 0
    else ((detected_swear_words.length : ℚ) / (tokens.length : ℚ)) * 100
  ⟨cleaned_text, detected_swear_words, swear_word_percentage⟩

/-- The result of Python's `open` + `json.load` in `load_swear_words`:
either some exception was raised (`Except.error`), or a JSON document was
parsed — a JSON object (modelled as an association list whose values are the
string lists relevant to `"swear_words"`), or any non-object JSON value, on
which `data.get` raises `AttributeError` (caught by the same `except`). -/
inductive JsonDoc where
  | obj (entries : List (String × List String))
  | nonObj
deriving DecidableEq

/-- Function `load_swear_words` (swear.py lines 24–37): the `try/except` body after the
effectful `open` + `json.load` (embedded as the `Except` input).
`data.get("swear_words", [])` is association lookup with default `[]`;
every error path returns `[]` (fail-open). -/
def load_swear_words (parsed : Except Unit JsonDoc) : List String :=
  match parsed with
  | .error _ => []
  | .ok .nonObj => []
  | .ok (.obj entries) =>
    match entries.lookup "swear_words" with
    | some ws => ws
    | none => []

/-- The `PersianSwearWordRemover` instance state (swear.py lines 17–22):
`tokenizer`, `model` and `pipeline` hold classifier state of arbitrary type
(the redaction methods never read them); `swear_words` holds the lexicon. -/
structure PersianSwearWordRemover (Tok Mod Pipe : Type) where
  tokenizer : Tok
  model : Mod
  pipeline : Pipe
  swear_words : List String

/-- Method `is_swear_word`: reads only `self.swear_words`. -/
def PersianSwearWordRemover.isSwearWord {Tok Mod Pipe : Type}
    (self : PersianSwearWordRemover Tok Mod Pipe) (token : String) : Bool :=
  is_swear_word self.swear_words token

/-- Method `remove_persian_swear_words`: reads only `self.swear_words`. -/
def PersianSwearWordRemover.removeSwearWords {Tok Mod Pipe : Type}
    (self : PersianSwearWordRemover Tok Mod Pipe) (text : String) : RedactionResult :=
  remove_persian_swear_words self.swear_words text

/-! ### Run lemmas for `normChars` -/

theorem normAux_cons_self (c : Char) (n : Nat) (rest : List Char) :
    normAux c n (c :: rest) = normAux c (n + 1) rest := by
  simp [normAux]

theorem normAux_cons_ne (c d : Char) (n : Nat) (rest : List Char) (h : d ≠ c) :
    normAux c n (d :: rest) = emitRun c n ++ normAux d 1 rest := by
  simp [normAux, h]

theorem normAux_replicate (c : Char) (y : List Char) :
    ∀ (m n : Nat), normAux c n (List.replicate m c ++ y) = normAux c (n + m) y := by
  intro m
  induction m with
  | zero => intro n; simp
  | succ m ih =>
    intro n
    rw [List.replicate_succ, List.cons_append, normAux_cons_self, ih (n + 1)]
    congr 1
    omega

theorem normAux_of_head_ne (c : Char) (n : Nat) :
    ∀ (y : List Char), y.head? ≠ some c → normAux c n y = emitRun c n ++ normChars y := by
  intro y h
  cases y with
  | nil => simp [normAux, normChars]
  | cons d t =>
    have hdc : d ≠ c := by simpa using h
    rw [normAux_cons_ne c d n t hdc]
    rfl

theorem emitRun_eq_of_small (c : Char) (n : Nat) (h : ¬ (c ≠ '\n' ∧ 3 ≤ n)) :
    emitRun c n = List.replicate n c := by
  simp only [emitRun, if_neg h]

theorem emitRun_eq_of_collapse (c : Char) (n : Nat) (h : c ≠ '\n' ∧ 3 ≤ n) :
    emitRun c n = [c] := by
  simp only [emitRun, if_pos h]

theorem emitRun_head (c : Char) (n : Nat) (h : 1 ≤ n) : (emitRun c n).head? = some c := by
  by_cases hc : c ≠ '\n' ∧ 3 ≤ n
  · rw [emitRun_eq_of_collapse c n hc]; rfl
  · rw [emitRun_eq_of_small c n hc]
    cases n with
    | zero => omega
    | succ m => rw [List.replicate_succ]; rfl

theorem emitRun_ne_nil (c : Char) (n : Nat) (h : 1 ≤ n) : emitRun c n ≠ [] := by
  intro hnil
  have := emitRun_head c n h
  rw [hnil] at this
  exact Option.noConfusion this

theorem getLast?_replicate_pos (c : Char) :
    ∀ (k : Nat), 1 ≤ k → (List.replicate k c).getLast? = some c := by
  intro k
  induction k with
  | zero => omega
  | succ m ih =>
    intro _
    cases m with
    | zero => rfl
    | succ m2 =>
      rw [List.replicate_succ, List.replicate_succ, List.getLast?_cons_cons,
        ← List.replicate_succ, ih (by omega)]

theorem head?_replicate_pos (c : Char) (k : Nat) (h : 1 ≤ k) :
    (List.replicate k c).head? = some c := by
  cases k with
  | zero => omega
  | succ m => rw [List.replicate_succ]; rfl

theorem run_decomp :
    ∀ (l : List Char), l ≠ [] →
      ∃ c k t, l = List.replicate k c ++ t ∧ 1 ≤ k ∧ t.head? ≠ some c := by
  intro l
  induction l with
  | nil => intro h; exact absurd rfl h
  | cons a l ih =>
    intro _
    cases l with
    | nil => exact ⟨a, 1, [], by simp, by omega, by simp⟩
    | cons b l2 =>
      obtain ⟨c, k, t, heq, hk, ht⟩ := ih (by simp)
      have hbc : b = c := by
        have h1 : (b :: l2).head? = (List.replicate k c ++ t).head? := by rw [heq]
        rw [List.head?_append_of_ne_nil _ (by
              intro hnil
              have := congrArg List.length hnil
              simp only [List.length_replicate, List.length_nil] at this
              omega),
          head?_replicate_pos c k hk] at h1
        simpa using h1
      by_cases hac : a = c
      · refine ⟨c, k + 1, t, ?_, by omega, ht⟩
        rw [List.replicate_succ, List.cons_append, ← heq, hac]
      · refine ⟨a, 1, b :: l2, by simp, by omega, ?_⟩
        simp only [List.head?_cons, ne_eq, Option.some.injEq, hbc]
        exact fun h => hac h.symm

theorem normChars_replicate_append (c : Char) (k : Nat) (hk : 1 ≤ k) (y : List Char)
    (hy : y.head? ≠ some c) :
    normChars (List.replicate k c ++ y) = emitRun c k ++ normChars y := by
  cases k with
  | zero => omega
  | succ m =>
    rw [List.replicate_succ, List.cons_append]
    show normAux c 1 (List.replicate m c ++ y) = _
    rw [normAux_replicate, normAux_of_head_ne c (1 + m) y hy]
    congr 2
    omega

theorem normChars_replicate (c : Char) (k : Nat) (hk : 1 ≤ k) :
    normChars (List.replicate k c) = emitRun c k := by
  have := normChars_replicate_append c k hk [] (by simp)
  simpa [normChars] using this

theorem normAux_head (c : Char) :
    ∀ (l : List Char) (n : Nat), 1 ≤ n → (normAux c n l).head? = some c := by
  intro l
  induction l with
  | nil => intro n hn; simpa [normAux] using emitRun_head c n hn
  | cons d t ih =>
    intro n hn
    by_cases hdc : d = c
    · subst hdc
      rw [normAux_cons_self]
      exact ih (n + 1) (by omega)
    · rw [normAux_cons_ne c d n t hdc,
        List.head?_append_of_ne_nil _ (emitRun_ne_nil c n hn)]
      exact emitRun_head c n hn

theorem normChars_head (c : Char) (l : List Char) :
    (normChars (c :: l)).head? = some c :=
  normAux_head c l 1 (by omega)

theorem normChars_append_aux :
    ∀ (N : Nat) (x y : List Char), x.length ≤ N →
      (∀ c, x.getLast? = some c → y.head? ≠ some c) →
      normChars (x ++ y) = normChars x ++ normChars y := by
  intro N
  induction N with
  | zero =>
    intro x y hx _
    have : x = [] := List.eq_nil_of_length_eq_zero (Nat.le_zero.mp hx)
    simp [this, normChars]
  | succ N ih =>
    intro x y hx hlast
    by_cases hxnil : x = []
    · simp [hxnil, normChars]
    · obtain ⟨c, k, t, heq, hk, ht⟩ := run_decomp x hxnil
      subst heq
      by_cases htnil : t = []
      · subst htnil
        rw [List.append_nil]
        have hy : y.head? ≠ some c := by
          apply hlast c
          rw [List.append_nil, getLast?_replicate_pos c k hk]
        rw [normChars_replicate_append c k hk y hy, normChars_replicate c k hk]
      · rw [List.append_assoc]
        have hty : (t ++ y).head? ≠ some c := by
          rw [List.head?_append_of_ne_nil t htnil]
          exact ht
        rw [normChars_replicate_append c k hk (t ++ y) hty]
        have hlen : t.length ≤ N := by
          rw [List.length_append, List.length_replicate] at hx
          omega
        have hlast2 : ∀ d, t.getLast? = some d → y.head? ≠ some d := by
          intro d hd
          apply hlast d
          rw [List.getLast?_append_of_ne_nil _ htnil]
          exact hd
        rw [ih t y hlen hlast2, normChars_replicate_append c k hk t ht,
          List.append_assoc]

theorem normChars_append (x y : List Char)
    (h : ∀ c, x.getLast? = some c → y.head? ≠ some c) :
    normChars (x ++ y) = normChars x ++ normChars y :=
  normChars_append_aux x.length x y (Nat.le_refl _) h

theorem emitRun_stable (c : Char) (k : Nat) (hk : 1 ≤ k) :
    ∃ k2, emitRun c k = List.replicate k2 c ∧ 1 ≤ k2
      ∧ emitRun c k2 = List.replicate k2 c := by
  by_cases h : c ≠ '\n' ∧ 3 ≤ k
  · refine ⟨1, ?_, by omega, ?_⟩
    · rw [emitRun_eq_of_collapse c k h]; rfl
    · rw [emitRun_eq_of_small c 1 (by omega)]
  · exact ⟨k, emitRun_eq_of_small c k h, hk, emitRun_eq_of_small c k h⟩

theorem normChars_idem_aux :
    ∀ (N : Nat) (l : List Char), l.length ≤ N →
      normChars (normChars l) = normChars l := by
  intro N
  induction N with
  | zero =>
    intro l hl
    have : l = [] := List.eq_nil_of_length_eq_zero (Nat.le_zero.mp hl)
    simp [this, normChars]
  | succ N ih =>
    intro l hl
    by_cases hnil : l = []
    · simp [hnil, normChars]
    · obtain ⟨c, k, t, heq, hk, ht⟩ := run_decomp l hnil
      subst heq
      rw [normChars_replicate_append c k hk t ht]
      obtain ⟨k2, h1, hk2, h2⟩ := emitRun_stable c k hk
      rw [h1]
      have hhead : (normChars t).head? ≠ some c := by
        cases t with
        | nil => simp [normChars]
        | cons d t2 =>
          rw [normChars_head]
          simpa using ht
      rw [normChars_replicate_append c k2 hk2 (normChars t) hhead]
      have hlen : t.length ≤ N := by
        rw [List.length_append, List.length_replicate] at hl
        omega
      rw [ih t hlen, h2]

theorem normChars_idem (l : List Char) : normChars (normChars l) = normChars l :=
  normChars_idem_aux l.length l (Nat.le_refl _)

/-! ### Token-classification lemmas -/

theorem classifyTokens_eq_filter (swear_words : List String) :
    ∀ (toks : List String),
      classifyTokens swear_words toks
        = (toks.filter (fun t => ! is_swear_word swear_words t),
           toks.filter (fun t => is_swear_word swear_words t)) := by
  intro toks
  induction toks with
  | nil => rfl
  | cons t rest ih =>
    simp only [classifyTokens, ih, List.filter_cons]
    by_cases h : is_swear_word swear_words t = true
    · simp [h]
    · simp [h, Bool.eq_false_iff.mpr h]

theorem length_filter_not_add_length_filter {α : Type} (p : α → Bool) :
    ∀ (l : List α),
      (l.filter (fun a => ! p a)).length + (l.filter p).length = l.length := by
  intro l
  induction l with
  | nil => rfl
  | cons a l ih =>
    by_cases h : p a = true <;> simp [List.filter_cons, h] <;> omega

theorem replicate_pos_ne_nil (c : Char) (k : Nat) (hk : 1 ≤ k) :
    List.replicate k c ≠ [] := by
  intro h0
  have := congrArg List.length h0
  simp only [List.length_replicate, List.length_nil] at this
  omega

theorem normChars_around_run (c : Char) (s s2 : String)
    (hs : s.data.getLast? ≠ some c) (hs2 : s2.data.head? ≠ some c) :
    ∀ (k : Nat), 1 ≤ k →
      normChars (s.data ++ List.replicate k c ++ s2.data)
        = normChars s.data ++ emitRun c k ++ normChars s2.data := by
  intro k hk
  rw [List.append_assoc]
  rw [normChars_append s.data (List.replicate k c ++ s2.data) (by
        intro a ha hhead
        rw [List.head?_append_of_ne_nil _ (replicate_pos_ne_nil c k hk),
          head?_replicate_pos c k hk] at hhead
        have hca : c = a := by simpa using hhead
        exact hs (hca ▸ ha))]
  rw [normChars_replicate_append c k hk s2.data hs2, ← List.append_assoc]

/-! ### Claim theorems -/

/-- C1: for every lexicon and document, `remove_persian_swear_words` routes each
whitespace-split token of the normalized document, in original order, to the
detected list exactly when `is_swear_word` holds (clean list otherwise), the
clean and detected counts sum to the total token count, and `cleaned_text` is
the clean tokens joined by single spaces. -/
theorem remove_partitions_tokens (swear_words : List String) (text : String) :
    (remove_persian_swear_words swear_words text).cleaned_text
        = String.intercalate " "
            ((pySplit (normalize_text text)).filter
              (fun t => ! is_swear_word swear_words t))
    ∧ (remove_persian_swear_words swear_words text).detected_swear_words
        = (pySplit (normalize_text text)).filter
            (fun t => is_swear_word swear_words t)
    ∧ ((pySplit (normalize_text text)).filter
          (fun t => ! is_swear_word swear_words t)).length
        + ((pySplit (normalize_text text)).filter
            (fun t => is_swear_word swear_words t)).length
        = (pySplit (normalize_text text)).length :=
  ⟨by simp [remove_persian_swear_words, classifyTokens_eq_filter],
   by simp [remove_persian_swear_words, classifyTokens_eq_filter],
   length_filter_not_add_length_filter _ _⟩

/-- C2: `is_swear_word` holds exactly when some lexicon fragment is a
contiguous (case-sensitive) substring of the normalized token, and the empty
lexicon never matches. -/
theorem is_swear_word_iff_infix (swear_words : List String) (token : String) :
    (is_swear_word swear_words token = true
        ↔ ∃ sw ∈ swear_words, sw.data <:+: (normalize_text token).data)
    ∧ is_swear_word [] token = false := by
  refine ⟨?_, rfl⟩
  simp [is_swear_word]

/-- C3: `normalize_text` is idempotent. -/
theorem normalize_text_idempotent (t : String) :
    normalize_text (normalize_text t) = normalize_text t :=
  congrArg String.mk (normChars_idem t.data)

/-- C4 (amended): for every character `c` other than `'\n'`, every `n ≥ 3`,
and strings `s` not ending with `c` and `s2` not starting with `c`,
`normalize_text` collapses the run `c^n` to a single `c`; runs of exactly two
identical characters are left unchanged (the second part needs no
`c ≠ '\n'`, but is stated under the same hypotheses). -/
theorem normalize_text_collapse (c : Char) (n : Nat) (s s2 : String)
    (hc : c ≠ '\n') (hn : 3 ≤ n)
    (hs : s.data.getLast? ≠ some c) (hs2 : s2.data.head? ≠ some c) :
    normalize_text ⟨s.data ++ List.replicate n c ++ s2.data⟩
        = normalize_text ⟨s.data ++ [c] ++ s2.data⟩
    ∧ normalize_text ⟨s.data ++ [c, c] ++ s2.data⟩
        = ⟨(normalize_text s).data ++ [c, c] ++ (normalize_text s2).data⟩ := by
  constructor
  · apply congrArg String.mk
    have h1 := normChars_around_run c s s2 hs hs2 n (by omega)
    have h2 := normChars_around_run c s s2 hs hs2 1 (by omega)
    rw [List.replicate_one] at h2
    rw [h1, h2, emitRun_eq_of_collapse c n ⟨hc, hn⟩, emitRun_eq_of_small c 1 (by omega),
      List.replicate_one]
  · apply congrArg String.mk
    have h3 := normChars_around_run c s s2 hs hs2 2 (by omega)
    have hrep2 : List.replicate 2 c = [c, c] := rfl
    rw [hrep2] at h3
    rw [h3, emitRun_eq_of_small c 2 (by omega), hrep2]
    rfl

/-- C4 counterexample: the claim quantifies over every character, but Python's
`.` in `re.sub(r'(.)\1{2,}', r'\1', text)` does not match `'\n'`: at
`c = '\n'`, `n = 3`, `s = s2 = ""` the claimed equation fails — a run of three
newlines is not collapsed. -/
theorem normalize_text_newline_counterexample :
    normalize_text ⟨("" : String).data ++ List.replicate 3 '\n' ++ ("" : String).data⟩
      ≠ normalize_text ⟨("" : String).data ++ ['\n'] ++ ("" : String).data⟩ := by
  decide

/-- Witness for C4 (amended) at `c = 'a'`, `n = 3`, `s = "xy"`, `s2 = "zw"`. -/
theorem normalize_text_collapse_witness :
    normalize_text ⟨("xy" : String).data ++ List.replicate 3 'a' ++ ("zw" : String).data⟩
        = normalize_text ⟨("xy" : String).data ++ ['a'] ++ ("zw" : String).data⟩
    ∧ normalize_text ⟨("xy" : String).data ++ ['a', 'a'] ++ ("zw" : String).data⟩
        = ⟨(normalize_text "xy").data ++ ['a', 'a'] ++ (normalize_text "zw").data⟩ :=
  normalize_text_collapse 'a' 3 "xy" "zw" (by decide) (by omega) (by decide) (by decide)

/-- C5: the returned percentage equals `100·|detected|/|tokens|` when the
token list is non-empty, is exactly `0` when it is empty, and always lies in
the closed interval `[0, 100]`. -/
theorem swear_word_percentage_spec (swear_words : List String) (text : String) :
    (remove_persian_swear_words swear_words text).swear_word_percentage
        = (if pySplit (normalize_text text) = [] then (0 : ℚ)
           else 100
              * ((remove_persian_swear_words swear_words
                    text).detected_swear_words.length : ℚ)
              / ((pySplit (normalize_text text)).length : ℚ))
    ∧ 0 ≤ (remove_persian_swear_words swear_words text).swear_word_percentage
    ∧ (remove_persian_swear_words swear_words text).swear_word_percentage ≤ 100 := by
  have hdet : (remove_persian_swear_words swear_words text).detected_swear_words
      = (pySplit (normalize_text text)).filter
          (fun t => is_swear_word swear_words t) := by
    simp [remove_persian_swear_words, classifyTokens_eq_filter]
  have hpct : (remove_persian_swear_words swear_words text).swear_word_percentage
      = if pySplit (normalize_text text) = [] then (0 : ℚ)
        else ((((pySplit (normalize_text text)).filter
                  (fun t => is_swear_word swear_words t)).length : ℚ)
               / ((pySplit (normalize_text text)).length : ℚ)) * 100 := by
    simp [remove_persian_swear_words, classifyTokens_eq_filter]
  by_cases hnil : pySplit (normalize_text text) = []
  · rw [hpct, hdet, if_pos hnil, if_pos hnil]
    norm_num
  · have hlen : 0 < (pySplit (normalize_text text)).length := List.length_pos.mpr hnil
    have h0 : (0 : ℚ) < ((pySplit (normalize_text text)).length : ℚ) := by
      exact_mod_cast hlen
    have hle : ((((pySplit (normalize_text text)).filter
          (fun t => is_swear_word swear_words t)).length : ℚ))
        ≤ ((pySplit (normalize_text text)).length : ℚ) := by
      exact_mod_cast List.length_filter_le _ _
    have hge : (0 : ℚ) ≤ (((pySplit (normalize_text text)).filter
          (fun t => is_swear_word swear_words t)).length : ℚ) := by positivity
    refine ⟨?_, ?_, ?_⟩
    · rw [hpct, hdet, if_neg hnil, if_neg hnil]
      ring
    · rw [hpct, if_neg hnil]
      positivity
    · rw [hpct, if_neg hnil]
      have hdiv : (((pySplit (normalize_text text)).filter
            (fun t => is_swear_word swear_words t)).length : ℚ)
          / ((pySplit (normalize_text text)).length : ℚ) ≤ 1 :=
        (div_le_one h0).mpr hle
      linarith

/-- C6: `load_swear_words` is fail-open: an exception anywhere in the
`try` body yields `[]`, a parsed non-object document yields `[]` (the
`data.get` attribute error is caught by the same handler), and a parsed
object lacking the `"swear_words"` field yields `[]`; the function is total
(never raises). -/
theorem load_swear_words_fail_open (e : Unit) (entries : List (String × List String))
    (h : entries.lookup "swear_words" = none) :
    load_swear_words (Except.error e) = []
    ∧ load_swear_words (Except.ok JsonDoc.nonObj) = []
    ∧ load_swear_words (Except.ok (JsonDoc.obj entries)) = [] := by
  refine ⟨rfl, rfl, ?_⟩
  simp [load_swear_words, h]

/-- Witness for C6 at a concrete failed parse, non-object document, and
object without the `"swear_words"` field. -/
theorem load_swear_words_fail_open_witness :
    load_swear_words (Except.error ()) = []
    ∧ load_swear_words (Except.ok JsonDoc.nonObj) = []
    ∧ load_swear_words (Except.ok (JsonDoc.obj [("words", ["x"])])) = [] :=
  load_swear_words_fail_open () [("words", ["x"])] (by decide)

/-- C7 counterexample: with the empty lexicon the input is NOT returned
unchanged — `remove_persian_swear_words` rejoins tokens with single spaces,
so `"a  b"` (double space) comes back as `"a b"`. -/
theorem empty_lexicon_counterexample :
    ¬ ((remove_persian_swear_words [] "a  b").cleaned_text = "a  b"
        ∧ (remove_persian_swear_words [] "a  b").detected_swear_words = []
        ∧ (remove_persian_swear_words [] "a  b").swear_word_percentage = 0) := by
  intro h
  have h1 := h.1
  revert h1
  decide

/-- C7 (amended): with the empty lexicon, nothing is detected and the
percentage is `0`, and `cleaned_text` is the single-space join of the
whitespace tokens of the normalized input — the input itself exactly when it
is already in that form (no runs of 3+ identical non-newline characters,
single-space separators, no leading/trailing whitespace). -/
theorem empty_lexicon_passthrough (text : String) :
    (remove_persian_swear_words [] text).cleaned_text
        = String.intercalate " " (pySplit (normalize_text text))
    ∧ (remove_persian_swear_words [] text).detected_swear_words = []
    ∧ (remove_persian_swear_words [] text).swear_word_percentage = 0 := by
  have hsw : ∀ t : String, is_swear_word [] t = false := fun t => rfl
  refine ⟨?_, ?_, ?_⟩ <;>
    simp [remove_persian_swear_words, classifyTokens_eq_filter, hsw]

/-- C8: the redaction result depends only on the lexicon and the input text:
two remover instances with equal `swear_words` — whatever their classifier
state (`tokenizer`, `model`, `pipeline`), of any types — yield identical
`RedactionResult`s, and each equals the pure function of the lexicon and the
text (the classifier state is never consulted). -/
theorem remover_state_independent {Tok1 Mod1 Pipe1 Tok2 Mod2 Pipe2 : Type}
    (r1 : PersianSwearWordRemover Tok1 Mod1 Pipe1)
    (r2 : PersianSwearWordRemover Tok2 Mod2 Pipe2) (text : String)
    (h : r1.swear_words = r2.swear_words) :
    r1.removeSwearWords text = r2.removeSwearWords text
    ∧ r1.removeSwearWords text = remove_persian_swear_words r1.swear_words text := by
  unfold PersianSwearWordRemover.removeSwearWords
  rw [h]
  exact ⟨rfl, rfl⟩

/-- Witness for C8: two removers with equal lexica but different classifier
states (of different types) produce the same result. -/
theorem remover_state_independent_witness :
    PersianSwearWordRemover.removeSwearWords
        (⟨0, 1, 2, ["x"]⟩ : PersianSwearWordRemover Nat Nat Nat) "x y"
      = PersianSwearWordRemover.removeSwearWords
          (⟨true, "m", (3 : Int), ["x"]⟩ : PersianSwearWordRemover Bool String Int)
          "x y" :=
  (remover_state_independent
    (⟨0, 1, 2, ["x"]⟩ : PersianSwearWordRemover Nat Nat Nat)
    (⟨true, "m", (3 : Int), ["x"]⟩ : PersianSwearWordRemover Bool String Int)
    "x y" rfl).1

theorem example_two_eval :
    remove_persian_swear_words ["damn"] "you damnnn person"
      = ⟨"you person", ["damn"], 100 / 3⟩ := by
  have h1 : pySplit (normalize_text "you damnnn person")
      = ["you", "damn", "person"] := by decide
  have h2 : classifyTokens ["damn"] ["you", "damn", "person"]
      = (["you", "person"], ["damn"]) := by decide
  have h3 : String.intercalate " " ["you", "person"] = "you person" := by decide
  simp only [remove_persian_swear_words, h1, h2, h3]
  norm_num
  decide

/-- C9 counterexample: on lexicon `["damn"]` and input `"you damnnn person"`
the returned percentage is `100/3 = 33.3̄`, not `33.33` — the two-decimal
value `33.33` only appears in the report formatting (`:.2f`), not in the
returned dictionary. -/
theorem example_two_counterexample :
    ¬ (remove_persian_swear_words ["damn"] "you damnnn person"
        = ⟨"you person", ["damn"], 3333 / 100⟩) := by
  rw [example_two_eval]
  intro h
  have h2 := congrArg RedactionResult.swear_word_percentage h
  norm_num at h2

/-- C9 (amended): with lexicon `["damn"]` and input `"you damnnn person"`,
the result is detected `["damn"]`, cleaned text `"you person"`, and
percentage `100/3` (rendered as `33.33` at two decimal places). -/
theorem example_two_amended :
    remove_persian_swear_words ["damn"] "you damnnn person"
      = ⟨"you person", ["damn"], 100 / 3⟩ :=
  example_two_eval

/-- C10: if the lexicon contains the empty string, `is_swear_word` accepts
every token, so every token of every document is detected: the detected list
is the whole token list, the cleaned text is empty, and the percentage is
`100` whenever the token list is non-empty. -/
theorem empty_fragment_detects_all (swear_words : List String) (text : String)
    (h : "" ∈ swear_words) :
    (∀ token : String, is_swear_word swear_words token = true)
    ∧ (remove_persian_swear_words swear_words text).detected_swear_words
        = pySplit (normalize_text text)
    ∧ (remove_persian_swear_words swear_words text).cleaned_text = ""
    ∧ (pySplit (normalize_text text) ≠ [] →
        (remove_persian_swear_words swear_words text).swear_word_percentage = 100) := by
  have hsw : ∀ token : String, is_swear_word swear_words token = true := by
    intro token
    simp only [is_swear_word, List.any_eq_true]
    exact ⟨"", h, by simp⟩
  have hfilterT : ∀ l : List String,
      l.filter (fun t => is_swear_word swear_words t) = l :=
    fun l => List.filter_eq_self.mpr (fun a _ => hsw a)
  have hfilterF : ∀ l : List String,
      l.filter (fun t => ! is_swear_word swear_words t) = [] := by
    intro l
    induction l with
    | nil => rfl
    | cons a l ih => simp [List.filter_cons, hsw a, ih]
  refine ⟨hsw, ?_, ?_, ?_⟩
  · simp [remove_persian_swear_words, classifyTokens_eq_filter, hfilterT]
  · simp only [remove_persian_swear_words, classifyTokens_eq_filter, hfilterF]
    rfl
  · intro hne
    have hlen : 0 < (pySplit (normalize_text text)).length := List.length_pos.mpr hne
    have h0 : ((pySplit (normalize_text text)).length : ℚ) ≠ 0 := by
      exact_mod_cast Nat.pos_iff_ne_zero.mp hlen
    simp only [remove_persian_swear_words, classifyTokens_eq_filter, hfilterT,
      if_neg hne]
    rw [div_self h0, one_mul]

/-- Witness for C10 at lexicon `[""]` and input `"x y"`. -/
theorem empty_fragment_detects_all_witness :
    (remove_persian_swear_words [""] "x y").cleaned_text = ""
    ∧ (remove_persian_swear_words [""] "x y").swear_word_percentage = 100 :=
  ⟨(empty_fragment_detects_all [""] "x y" (by decide)).2.2.1,
   (empty_fragment_detects_all [""] "x y" (by decide)).2.2.2 (by decide)⟩

end PersianSwear
